import Mathlib

/-!
Verification of the perceval Gerrit and Meetup backends
(src/perceval/backends/core/gerrit.py, src/perceval/backends/core/meetup.py).

The Python code is shallowly embedded: generators become functions from the
sequence of pages the remote server would return to the list of yielded
items; UNIX timestamps become `Int`; the stateful retry / archive code
becomes explicit state passing.  Loops whose termination depends on server
data are given explicit fuel, with the entry points supplying a fuel bound
that dominates the number of iterations (each iteration pops exactly one
item, and items only enter the queues from the supplied pages).
-/

namespace Gerrit

/-- A Gerrit review as far as the fetch loops inspect it: the change
`number` (identifier), the `lastUpdated` UNIX timestamp and the opaque
`sortKey` used as resume token by old Gerrit versions. -/
structure Review where
  number : Nat
  lastUpdated : Int
  sortKey : String
deriving DecidableEq, Repr

/-- Loop body of `Gerrit._fetch_gerrit` (gerrit.py lines 258-275).
Arguments mirror the Python locals: the pending `reviews` queue, the size
`lastN` of the page most recently fetched (`last_nreviews`), and the pages
the server returns for the successive refill queries.  A review with
`lastUpdated <= from_ut` stops the stream without being yielded; a refill
is requested only when the queue empties and the last page was full. -/
def gLoopF (w : Int) (m : Nat) : Nat → List Review → Nat → List (List Review) → List Review
  | 0, _, _, _ => []
  | _, [], _, _ => []
  | fuel+1, r :: rest, lastN, pages =>
      if r.lastUpdated ≤ w then []
      else
        r :: (if rest = [] ∧ m ≤ lastN then
                match pages with
                | [] => []
                | p :: ps => gLoopF w m fuel p p.length ps
              else gLoopF w m fuel rest lastN pages)

/-- `Gerrit._fetch_gerrit` (gerrit.py lines 249-275): fetch the first page,
then run the loop.  `max_reviews` is clamped with `max 1` exactly as
`Gerrit.__init__` does (`self.max_reviews = max(1, max_reviews)`).
`pages` is the sequence of pages the server returns to the successive
queries; an exhausted server is an empty page, which ends the loop. -/
def fetch_gerrit (w : Int) (maxReviews : Nat) (pages : List (List Review)) : List Review :=
  match pages with
  | [] => []
  | p :: ps => gLoopF w (max 1 maxReviews) (pages.flatten.length + 1) p p.length ps

/-- One partition of the Gerrit 2.8 dual-queue state: the pending queue,
the size of the page most recently fetched for this partition, and the
pages the server would return to further queries of this partition. -/
structure Part where
  q : List Review
  lastN : Nat
  pages : List (List Review)
deriving DecidableEq, Repr

/-- State of the `Gerrit._fetch_gerrit28` loop: the open and closed
partitions. -/
structure G28State where
  op : Part
  cl : Part
deriving DecidableEq, Repr

/-- Selection step of `Gerrit._fetch_gerrit28` (gerrit.py lines 219-231):
with both queues non-empty the open front is popped when its `lastUpdated`
is greater or equal to the closed front (Python
`reviews_open[0]['lastUpdated'] >= reviews_closed[0]['lastUpdated']`);
with one queue empty the other is popped; with both empty the while loop
ends.  Returns the popped review and the two updated queues. -/
def g28Sel (oq cq : List Review) : Option (Review × List Review × List Review) :=
  match oq, cq with
  | [], [] => none
  | ro :: os, rc :: cs =>
      if rc.lastUpdated ≤ ro.lastUpdated then some (ro, os, rc :: cs)
      else some (rc, ro :: os, cs)
  | [], rc :: cs => some (rc, [], cs)
  | ro :: os, [] => some (ro, os, [])

/-- Refill step of `Gerrit._fetch_gerrit28` (gerrit.py lines 240-247): when
a partition's queue is empty and its last page was full
(`last_nreviews >= max_reviews`), the next page is requested; a server with
nothing more to return yields the empty page. -/
def g28Refill (m : Nat) (p : Part) : Part :=
  if p.q = [] ∧ m ≤ p.lastN then
    match p.pages with
    | [] => ⟨[], 0, []⟩
    | pg :: pgs => ⟨pg, pg.length, pgs⟩
  else p

/-- The while loop of `Gerrit._fetch_gerrit28` (gerrit.py lines 218-247)
with explicit fuel: select the more recent front, stop the whole stream on
the first review at or before the watermark, otherwise yield it and refill
whichever partition has run dry after a full page. -/
def g28LoopF (w : Int) (m : Nat) : Nat → G28State → List Review
  | 0, _ => []
  | fuel+1, s =>
      match g28Sel s.op.q s.cl.q with
      | none => []
      | some (r, oq, cq) =>
          if r.lastUpdated ≤ w then []
          else
            r :: g28LoopF w m fuel
              ⟨g28Refill m ⟨oq, s.op.lastN, s.op.pages⟩,
               g28Refill m ⟨cq, s.cl.lastN, s.cl.pages⟩⟩

/-- Initial load of one partition (gerrit.py lines 213-216): the first page
becomes the pending queue and its length `last_nreviews`. -/
def initPart : List (List Review) → Part
  | [] => ⟨[], 0, []⟩
  | p :: ps => ⟨p, p.length, ps⟩

/-- Fuel that dominates the iteration count of the 2.8 loop: every
iteration pops exactly one review, and reviews only enter the queues from
the supplied pages. -/
def g28Fuel (s : G28State) : Nat :=
  s.op.q.length + s.op.pages.flatten.length +
    s.cl.q.length + s.cl.pages.flatten.length + 1

/-- `Gerrit._fetch_gerrit28` (gerrit.py lines 197-247): load the first open
and closed pages and run the merge loop.  `max_reviews` is clamped with
`max 1` as in `Gerrit.__init__`. -/
def fetch_gerrit28 (w : Int) (maxReviews : Nat)
    (openPages closedPages : List (List Review)) : List Review :=
  let s : G28State := ⟨initPart openPages, initPart closedPages⟩
  g28LoopF w (max 1 maxReviews) (g28Fuel s) s

/-- The dual-queue merge of `Gerrit._fetch_gerrit28` without the watermark
check: the same selection and refill steps run to exhaustion.  Used to
state that the watermarked loop is exactly this merge truncated at the
first item at or before the watermark. -/
def g28AllF (m : Nat) : Nat → G28State → List Review
  | 0, _ => []
  | fuel+1, s =>
      match g28Sel s.op.q s.cl.q with
      | none => []
      | some (r, oq, cq) =>
          r :: g28AllF m fuel
            ⟨g28Refill m ⟨oq, s.op.lastN, s.op.pages⟩,
             g28Refill m ⟨cq, s.cl.lastN, s.cl.pages⟩⟩

/-- The fully merged review sequence (no watermark) for the pages of the
two partitions, with the same initial load and fuel as `fetch_gerrit28`. -/
def fetch_gerrit28_all (maxReviews : Nat)
    (openPages closedPages : List (List Review)) : List Review :=
  let s : G28State := ⟨initPart openPages, initPart closedPages⟩
  g28AllF (max 1 maxReviews) (g28Fuel s) s

/-- The emitted `lastUpdated` sequence is non-increasing. -/
def NonInc (l : List Review) : Prop :=
  List.Pairwise (fun a b => b.lastUpdated ≤ a.lastUpdated) l

instance : DecidablePred NonInc := fun l =>
  inferInstanceAs (Decidable (List.Pairwise _ l))

/-- The page items of one partition that the 2.8 refill chain can still
load: a page is requested only while the page before it was full
(`last_nreviews >= max_reviews`), so the chain stops at the first short
page. -/
def pagesReach (m : Nat) : Nat → List (List Review) → List Review
  | _, [] => []
  | lastN, pg :: pgs => if m ≤ lastN then pg ++ pagesReach m pg.length pgs else []

/-- All reviews of a partition the 2.8 loop can still emit: the pending
queue followed by the loadable pages. -/
def reach (m : Nat) (p : Part) : List Review :=
  p.q ++ pagesReach m p.lastN p.pages

/-- A pagination cursor: Gerrit versions with offset pagination use an
integer offset, old versions use the last popped review's `sortKey`
string. -/
inductive Cursor where
  | ofs (n : Nat)
  | key (s : String)
deriving DecidableEq, Repr

/-- A fatal Gerrit backend error (perceval `BackendError`). -/
structure BackendError where
  cause : String
deriving DecidableEq, Repr

/-- `GerritClient.next_retrieve_group_item` (gerrit.py lines 384-404):
version-dependent computation of the next resume token.  Versions 2.x with
minor greater than 9 and 3.x return offset 0 on the first call and the
caller-advanced offset afterwards; version 2.9 raises `BackendError`;
older versions return the last popped entry's `sortKey` (or nothing on the
first call). -/
def next_retrieve_group_item (ver : Nat × Nat) (lastItem : Option Cursor)
    (entry : Option Review) : Except BackendError (Option Cursor) :=
  if (ver.1 = 2 ∧ 9 < ver.2) ∨ ver.1 = 3 then
    .ok (some (match lastItem with
               | none => .ofs 0
               | some c => c))
  else if ver.1 = 2 ∧ ver.2 = 9 then
    .error ⟨"Gerrit 2.9.0 does not support pagination"⟩
  else
    .ok (match entry with
         | none => none
         | some e => some (.key e.sortKey))

/-- Whitespace as Python's regex class interprets it on ASCII commands,
so that the backslash-S of the sanitizing regex is its complement. -/
def pyIsSpace (c : Char) : Bool :=
  c = ' ' || c = '\t' || c = '\n' || c = '\x0b' || c = '\x0c' || c = '\r'

/-- Scanning helper for the regex of `GerritClient.sanitize_for_archive`:
on input `l`, when the maximal non-whitespace run at the head of `l`
contains an at sign, return the remainder of `l` after the last at sign of
that run (the regex is greedy), and otherwise nothing. -/
def lastAtSplit : List Char → Option (List Char)
  | [] => none
  | c :: cs =>
      if pyIsSpace c then none
      else
        match lastAtSplit cs with
        | some rest => some rest
        | none => if c = '@' then some cs else none

/-- Replacement text of the sanitizing substitution (Python ' xxxxx@'). -/
def xxxxxAt : List Char := [' ', 'x', 'x', 'x', 'x', 'x', '@']

theorem lastAtSplit_length_lt : ∀ {l r : List Char}, lastAtSplit l = some r → r.length < l.length := by
  intro l
  induction l with
  | nil => intro r h; simp [lastAtSplit] at h
  | cons c cs ih =>
      intro r h
      simp only [lastAtSplit] at h
      by_cases hsp : pyIsSpace c = true
      · rw [if_pos hsp] at h
        exact absurd h (by simp)
      · rw [if_neg hsp] at h
        cases hcs : lastAtSplit cs with
        | some rest =>
            rw [hcs] at h
            injection h with h2
            subst h2
            have := ih hcs
            simp only [List.length_cons]
            omega
        | none =>
            rw [hcs] at h
            by_cases hc : c = '@'
            · rw [if_pos hc] at h
              injection h with h2
              subst h2
              simp only [List.length_cons]
              omega
            · rw [if_neg hc] at h
              exact absurd h (by simp)

/-- `GerritClient.sanitize_for_archive` (gerrit.py lines 406-417): the
global substitution of the regex consisting of a space, a greedy run of
non-whitespace and an at sign by the text ' xxxxx@', scanning left to
right as Python's re.sub does: at a space whose following non-whitespace
run contains an at sign, the match through the last such at sign is
replaced and scanning resumes after it; everything else is copied. -/
def sanitize_for_archive : List Char → List Char
  | [] => []
  | c :: cs =>
      if h : c = ' ' ∧ (lastAtSplit cs).isSome then
        xxxxxAt ++ sanitize_for_archive ((lastAtSplit cs).getD cs)
      else c :: sanitize_for_archive cs
termination_by l => l.length
decreasing_by
  · rcases Option.isSome_iff_exists.mp h.2 with ⟨r, hr⟩
    simp only [hr, Option.getD_some]
    exact Nat.lt_succ_of_lt (lastAtSplit_length_lt hr)
  · exact Nat.lt_succ_self _

/-- The string 'ssh ' of the command template of `GerritClient.__init__`
(gerrit.py line 335). -/
def sshLit : List Char := ['s', 's', 'h', ' ']

/-- The string ' -p ' of the command template of `GerritClient.__init__`
(gerrit.py line 335). -/
def dashPLit : List Char := [' ', '-', 'p', ' ']

/-- The ssh command assembled by `GerritClient.__init__` (gerrit.py lines
335-340): 'ssh ' followed by the ssh options, ' -p ', the port, a space,
then user, at sign and host; `rest` is the remainder of the command
(' gerrit ' and the query) appended by the callers. -/
def gerrit_cmd (sshOpts port user host rest : List Char) : List Char :=
  sshLit ++ sshOpts ++ dashPLit ++ port ++ ' ' :: (user ++ '@' :: (host ++ rest))

/-- Outcome of one Gerrit ssh command: the raw output bytes on success or
a `RuntimeError` message on definitive failure. -/
abbrev Outcome := Except String String

/-- Modelled from the spec: the perceval `Archive` (not under src/, see
spec section 4.3) is a deterministic key/value store addressed by the
sanitized command; `store` records a payload under a key and `retrieve`
returns the payload previously stored under the key, or nothing for an
unknown key. -/
abbrev Archive := List (List Char × Outcome)

/-- Modelled from the spec: storing a payload under a key. -/
def Archive.store (a : Archive) (k : List Char) (v : Outcome) : Archive :=
  (k, v) :: a

/-- Modelled from the spec: retrieving the payload most recently stored
under a key. -/
def Archive.retrieve : Archive → List Char → Option Outcome
  | [], _ => none
  | (k', v) :: rest, k => if k' = k then some v else Archive.retrieve rest k

/-- Errors surfaced by executing a command: a re-raised `RuntimeError`, or
the fatal lookup failure of replaying a command never recorded. -/
inductive ExecError where
  | runtime (msg : String)
  | notFound
deriving DecidableEq, Repr

/-- `GerritClient.__execute_from_archive` (gerrit.py lines 429-438): look
the sanitized command up in the archive; a stored `RuntimeError` is
re-raised, a stored result is returned. -/
def execute_from_archive (ar : Archive) (cmd : List Char) : Except ExecError String :=
  match ar.retrieve (sanitize_for_archive cmd) with
  | none => .error .notFound
  | some (.ok v) => .ok v
  | some (.error msg) => .error (.runtime msg)

/-- Retry loop of `GerritClient.__execute_from_remote` (gerrit.py lines
443-453): up to `rem` further attempts, where `outcomes j` is what the
j-th execution of the subprocess produces (`none` is a
`CalledProcessError`).  On failure the loop sleeps `retryWait * retries`
seconds, with `retries` counting from 0, before the counter is advanced.
Returns the data (or `none` after the budget is exhausted) and the total
seconds slept. -/
def execLoop (retryWait : Nat) (outcomes : Nat → Option String) :
    Nat → Nat → Nat → Option String × Nat
  | 0, _, acc => (none, acc)
  | rem+1, retries, acc =>
      match outcomes retries with
      | some res => (some res, acc)
      | none => execLoop retryWait outcomes rem (retries + 1) (acc + retryWait * retries)

/-- `GerritClient.MAX_RETRIES` (gerrit.py line 309). -/
def MAX_RETRIES : Nat := 3

/-- `GerritClient.RETRY_WAIT` (gerrit.py line 310). -/
def RETRY_WAIT : Nat := 60

/-- The outcome of the retry loop of `GerritClient.__execute_from_remote`
(gerrit.py lines 443-456): the subprocess output, or — when the whole
budget failed and `result` stayed `None` — a `RuntimeError`. -/
def remoteOutcome (maxRetries retryWait : Nat) (outcomes : Nat → Option String) : Outcome :=
  match (execLoop retryWait outcomes maxRetries 0 0).1 with
  | some res => .ok res
  | none => .error "cmd failed. Giving up!"

/-- `GerritClient.__execute_from_remote` (gerrit.py lines 440-465): run the
retry loop; when an archive is configured the outcome — success or error
alike — is stored under the sanitized command; an error outcome is then
raised.  Returns the response, the total seconds slept and the updated
archive. -/
def execute_from_remote (maxRetries retryWait : Nat) (outcomes : Nat → Option String)
    (archive : Option Archive) (cmd : List Char) :
    Except ExecError String × Nat × Option Archive :=
  let result : Outcome := remoteOutcome maxRetries retryWait outcomes
  let slept := (execLoop retryWait outcomes maxRetries 0 0).2
  let archive' :=
    match archive with
    | none => none
    | some ar => some (ar.store (sanitize_for_archive cmd) result)
  let response : Except ExecError String :=
    match result with
    | .ok res => .ok res
    | .error msg => .error (.runtime msg)
  (response, slept, archive')

end Gerrit

namespace Meetup

/-- A Meetup event as the pagination walk inspects it: its id and the
`dateTime` timestamp parsed from the page node. -/
structure MEvent where
  id : Nat
  dateTime : Int
deriving DecidableEq, Repr

/-- One page of a group's event partition as returned by the GraphQL
source: the edge nodes plus the `pageInfo` fields. -/
structure EPage where
  edges : List MEvent
  hasNextPage : Bool
  endCursor : String
deriving DecidableEq, Repr

/-- Walk of one event partition inside `MeetupClient.events` (meetup.py
lines 481-504): every node of each page whose `dateTime` is strictly after
`from_date` is expanded and yielded (the expansion `self.event(id)` is
modelled as yielding the node itself); the walk requests the next page of
the partition while `hasNextPage` holds.  The supplied list is the
sequence of pages the server returns to the successive cursors. -/
def eventsWalk (fromD : Int) : List EPage → List MEvent
  | [] => []
  | p :: ps =>
      (p.edges.filter fun e => decide (fromD < e.dateTime)) ++
        (if p.hasNextPage then eventsWalk fromD ps else [])

/-- `MeetupClient.events` (meetup.py lines 468-504): walk the
`pastEvents` partition first; when its last page reports no next page,
restart the cursor on the `upcomingEvents` partition and walk it; when
that partition reports no next page, stop. -/
def events (fromD : Int) (pastPages upcomingPages : List EPage) : List MEvent :=
  eventsWalk fromD pastPages ++ eventsWalk fromD upcomingPages

/-- `MeetupClient.calculate_time_to_reset` (meetup.py lines 455-459): the
number of seconds to wait is the stored rate-limit reset value itself,
clamped below by zero. -/
def calculate_time_to_reset (rateLimitResetTs : Int) : Int :=
  if rateLimitResetTs < 0 then 0 else rateLimitResetTs

/-- Modelled from the spec: `RateLimitHandler.sleep_for_rate_limit`
(perceval/client.py, not under src/; spec section 4.1) sleeps only when
the handler is configured to throttle and the remaining quota is known and
at or below the configured floor, for the number of seconds the subclass
computation `calculate_time_to_reset` yields; with throttling disabled or
the quota unknown it never sleeps.  Returns the sleep duration, or nothing
when no sleep happens. -/
def sleep_for_rate_limit (sleepForRate : Bool) (rateLimit : Option Int)
    (minRateToSleep : Int) (rateLimitResetTs : Int) : Option Int :=
  match rateLimit with
  | none => none
  | some r =>
      if r ≤ minRateToSleep then
        if sleepForRate then some (calculate_time_to_reset rateLimitResetTs) else none
      else none

/-- The wait duration as the spec sentence words it: with a known reset
instant T and current time now, block for `max 0 (T - now)` seconds.
Stated from the spec for comparison with the code's computation. -/
def claimedWaitSeconds (now resetInstant : Int) : Int :=
  max 0 (resetInstant - now)

/-- One page of the comments walk, under the claim's assumption that the
page at a given offset holds the next `min maxItems (count - offset)`
edges of the `count` edges the source reports; the edges are identified by
their position. -/
def commentsPage (maxItems count ofs : Nat) : List Nat :=
  List.range' ofs (min maxItems (count - ofs))

/-- Loop of `MeetupClient.comments` (meetup.py lines 506-523) with
explicit fuel: request the page at the running offset, yield its edges,
advance the offset by `max_items` and stop as soon as the offset reaches
the reported total `count`. -/
def commentsLoopF (maxItems count : Nat) : Nat → Nat → List (List Nat)
  | 0, _ => []
  | fuel+1, ofs =>
      commentsPage maxItems count ofs ::
        (if count ≤ ofs + maxItems then []
         else commentsLoopF maxItems count fuel (ofs + maxItems))

/-- `MeetupClient.comments` (meetup.py lines 506-523): run the offset loop
from offset 0.  The fuel `count + 1` dominates the iteration count
whenever `maxItems` is at least one. -/
def comments (maxItems count : Nat) : List (List Nat) :=
  commentsLoopF maxItems count (count + 1) 0

/-- One page of the rsvps (tickets) walk: the edge nodes plus `pageInfo`. -/
structure TPage where
  edges : List Nat
  hasNextPage : Bool
  endCursor : String
deriving DecidableEq, Repr

/-- `MeetupClient.rsvps` (meetup.py lines 525-544): yield the edges of each
page and advance the cursor while the source reports a next page.  The
supplied list is the sequence of pages the server returns to the
successive cursors. -/
def rsvps : List TPage → List (List Nat)
  | [] => []
  | p :: ps => p.edges :: (if p.hasNextPage then rsvps ps else [])

/-- The Authorization header key (`MeetupClient.PKEY_OAUTH2`,
meetup.py line 437). -/
def PKEY_OAUTH2 : String := "Authorization"

/-- `MeetupClient.sanitize_for_archive` (meetup.py lines 546-558): drop the
Authorization entry from the headers (the Python dict pop, on headers
modelled as a key-value list) and keep url and payload. -/
def sanitize_for_archive (url : String) (headers : List (String × String))
    (payload : String) : String × List (String × String) × String :=
  (url, headers.filter fun kv => decide (kv.1 ≠ PKEY_OAUTH2), payload)

/-- A Meetup item as `Meetup.fetch_items` yields it (meetup.py lines
286-297): the event enriched with its comments, rsvps and the `fetched_on`
UTC timestamp taken at fetch time. -/
structure MeetupItem where
  id : Nat
  dateTime : Int
  comments : List Nat
  rsvps : List Nat
  fetched_on : Int
deriving DecidableEq, Repr

/-- Enrichment step of `Meetup.fetch_items` (meetup.py lines 289-296) for
one event: attach the fetched comments and rsvps and stamp `fetched_on`
with the current UTC time `now`. -/
def fetch_item (e : MEvent) (comments rsvps : List Nat) (now : Int) : MeetupItem :=
  ⟨e.id, e.dateTime, comments, rsvps, now⟩

/-- `Meetup.metadata_updated_on` (meetup.py lines 323-335): the update
timestamp of a Meetup item is its `fetched_on` field. -/
def metadata_updated_on (item : MeetupItem) : Int :=
  item.fetched_on

end Meetup

namespace Gerrit

theorem gLoopF_mem_gt (w : Int) (m : Nat) :
    ∀ (fuel : Nat) (q : List Review) (lastN : Nat) (pages : List (List Review))
      (r : Review), r ∈ gLoopF w m fuel q lastN pages → w < r.lastUpdated := by
  intro fuel
  induction fuel with
  | zero => intro q lastN pages r hr; simp [gLoopF] at hr
  | succ fuel ih =>
      intro q lastN pages r hr
      cases q with
      | nil => simp [gLoopF] at hr
      | cons hd tl =>
          simp only [gLoopF] at hr
          split at hr
          · simp at hr
          · rename_i hgt
            rw [List.mem_cons] at hr
            rcases hr with hr | hr
            · subst hr; omega
            · split at hr
              · cases pages with
                | nil => simp at hr
                | cons p ps => exact ih p p.length ps r hr
              · exact ih tl lastN pages r hr

theorem g28LoopF_mem_gt (w : Int) (m : Nat) :
    ∀ (fuel : Nat) (s : G28State) (r : Review),
      r ∈ g28LoopF w m fuel s → w < r.lastUpdated := by
  intro fuel
  induction fuel with
  | zero => intro s r hr; simp [g28LoopF] at hr
  | succ fuel ih =>
      intro s r hr
      simp only [g28LoopF] at hr
      cases hsel : g28Sel s.op.q s.cl.q with
      | none => rw [hsel] at hr; simp at hr
      | some picked =>
          obtain ⟨r', oq, cq⟩ := picked
          rw [hsel] at hr
          simp only at hr
          split at hr
          · simp at hr
          · rename_i hgt
            rw [List.mem_cons] at hr
            rcases hr with hr | hr
            · subst hr; omega
            · exact ih _ r hr

theorem g28LoopF_eq_takeWhile (w : Int) (m : Nat) :
    ∀ (fuel : Nat) (s : G28State),
      g28LoopF w m fuel s =
        (g28AllF m fuel s).takeWhile (fun r => decide (w < r.lastUpdated)) := by
  intro fuel
  induction fuel with
  | zero => intro s; rfl
  | succ fuel ih =>
      intro s
      simp only [g28LoopF, g28AllF]
      cases hsel : g28Sel s.op.q s.cl.q with
      | none => rfl
      | some picked =>
          obtain ⟨r, oq, cq⟩ := picked
          simp only
          by_cases hw : r.lastUpdated ≤ w
          · rw [if_pos hw]
            have hd : decide (w < r.lastUpdated) = false := by
              simp only [decide_eq_false_iff_not]
              omega
            simp [List.takeWhile_cons, hd]
          · rw [if_neg hw]
            have hd : decide (w < r.lastUpdated) = true := by
              simp only [decide_eq_true_eq]
              omega
            simp [List.takeWhile_cons, hd, ih]

end Gerrit

namespace Meetup

theorem eventsWalk_mem_gt (fromD : Int) :
    ∀ (pages : List EPage) (e : MEvent),
      e ∈ eventsWalk fromD pages → fromD < e.dateTime := by
  intro pages
  induction pages with
  | nil => intro e he; simp [eventsWalk] at he
  | cons p ps ih =>
      intro e he
      simp only [eventsWalk] at he
      rw [List.mem_append] at he
      rcases he with he | he
      · rw [List.mem_filter] at he
        exact of_decide_eq_true he.2
      · split at he
        · exact ih e he
        · simp at he

end Meetup

/-- C1: no yielded item is at or before the watermark.  The single-queue
Gerrit loop, the dual-queue Gerrit 2.8 loop and the Meetup event walk all
yield only items whose update time is strictly after the watermark. -/
theorem claim_C1 :
    (∀ (w : Int) (maxReviews : Nat) (pages : List (List Gerrit.Review))
       (r : Gerrit.Review), r ∈ Gerrit.fetch_gerrit w maxReviews pages →
         w < r.lastUpdated) ∧
    (∀ (w : Int) (maxReviews : Nat) (openPages closedPages : List (List Gerrit.Review))
       (r : Gerrit.Review), r ∈ Gerrit.fetch_gerrit28 w maxReviews openPages closedPages →
         w < r.lastUpdated) ∧
    (∀ (fromD : Int) (pastPages upcomingPages : List Meetup.EPage)
       (e : Meetup.MEvent), e ∈ Meetup.events fromD pastPages upcomingPages →
         fromD < e.dateTime) := by
  refine ⟨?_, ?_, ?_⟩
  · intro w maxReviews pages r hr
    unfold Gerrit.fetch_gerrit at hr
    cases pages with
    | nil => simp at hr
    | cons p ps => exact Gerrit.gLoopF_mem_gt w _ _ p p.length ps r hr
  · intro w maxReviews openPages closedPages r hr
    exact Gerrit.g28LoopF_mem_gt w _ _ _ r hr
  · intro fromD pastPages upcomingPages e he
    unfold Meetup.events at he
    rw [List.mem_append] at he
    rcases he with he | he
    · exact Meetup.eventsWalk_mem_gt fromD pastPages e he
    · exact Meetup.eventsWalk_mem_gt fromD upcomingPages e he

/-- Witness for C1 at concrete inputs: a review updated at 50 yielded over
watermark 30, a dual-queue review at 45, and a Meetup event dated 80 over
watermark 60. -/
theorem claim_C1_witness :
    (30 : Int) < Gerrit.Review.lastUpdated ⟨7, 50, ""⟩ ∧
    (30 : Int) < Gerrit.Review.lastUpdated ⟨8, 45, ""⟩ ∧
    (60 : Int) < Meetup.MEvent.dateTime ⟨9, 80⟩ :=
  ⟨claim_C1.1 30 500 [[⟨7, 50, ""⟩]] ⟨7, 50, ""⟩ (by decide),
   claim_C1.2.1 30 500 [[⟨8, 45, ""⟩]] [] ⟨8, 45, ""⟩ (by decide),
   claim_C1.2.2 60 [⟨[⟨9, 80⟩], false, "c"⟩] [] ⟨9, 80⟩ (by decide)⟩

/-- C2: the dual-queue stream stops entirely at the first merged front item
at or before the watermark.  In general, the watermarked loop equals the
unfiltered merge of the same pages truncated at the first item at or
before the watermark: that item is not yielded and nothing after it — from
either partition's queue — is drained.  In the claim's scenario (open page
timestamped 50 and 40, closed page timestamped 45 and 10, watermark 30)
exactly the reviews timestamped 50, 45 and 40 are emitted in that order
and the review timestamped 10 is never emitted.  And in a scenario whose
closed queue still holds a review timestamped 40 — above the watermark —
behind the stopping item, the stream stops at [50, 45] and that review is
never emitted, which a skip-and-continue loop would have emitted. -/
theorem claim_C2 :
    (∀ (w : Int) (maxReviews : Nat) (openPages closedPages : List (List Gerrit.Review)),
        Gerrit.fetch_gerrit28 w maxReviews openPages closedPages =
          (Gerrit.fetch_gerrit28_all maxReviews openPages closedPages).takeWhile
            (fun r => decide (w < r.lastUpdated))) ∧
    (Gerrit.fetch_gerrit28 30 500
        [[⟨1, 50, ""⟩, ⟨2, 40, ""⟩]] [[⟨3, 45, ""⟩, ⟨4, 10, ""⟩]] =
      [⟨1, 50, ""⟩, ⟨3, 45, ""⟩, ⟨2, 40, ""⟩] ∧
      (⟨4, 10, ""⟩ : Gerrit.Review) ∉
        Gerrit.fetch_gerrit28 30 500
          [[⟨1, 50, ""⟩, ⟨2, 40, ""⟩]] [[⟨3, 45, ""⟩, ⟨4, 10, ""⟩]]) ∧
    (Gerrit.fetch_gerrit28 30 500
        [[⟨1, 50, ""⟩, ⟨2, 20, ""⟩]] [[⟨3, 45, ""⟩, ⟨4, 10, ""⟩, ⟨5, 40, ""⟩]] =
      [⟨1, 50, ""⟩, ⟨3, 45, ""⟩] ∧
      (⟨5, 40, ""⟩ : Gerrit.Review) ∉
        Gerrit.fetch_gerrit28 30 500
          [[⟨1, 50, ""⟩, ⟨2, 20, ""⟩]] [[⟨3, 45, ""⟩, ⟨4, 10, ""⟩, ⟨5, 40, ""⟩]]) := by
  refine ⟨?_, ⟨by decide, by decide⟩, ⟨by decide, by decide⟩⟩
  intro w maxReviews openPages closedPages
  unfold Gerrit.fetch_gerrit28 Gerrit.fetch_gerrit28_all
  exact Gerrit.g28LoopF_eq_takeWhile w _ _ _

namespace Gerrit

theorem execLoop_success (w : Nat) (outcomes : Nat → Option String) (v : String) :
    ∀ (i rem start acc : Nat), i < rem →
      (∀ j, j < i → outcomes (start + j) = none) →
      outcomes (start + i) = some v →
      execLoop w outcomes rem start acc =
        (some v, acc + w * ∑ j ∈ Finset.range i, (start + j)) := by
  intro i
  induction i with
  | zero =>
      intro rem start acc hlt hfail hsucc
      cases rem with
      | zero => omega
      | succ r =>
          rw [Nat.add_zero] at hsucc
          simp [execLoop, hsucc]
  | succ i ih =>
      intro rem start acc hlt hfail hsucc
      cases rem with
      | zero => omega
      | succ r =>
          have h0 : outcomes start = none := by
            have := hfail 0 (Nat.succ_pos i)
            rwa [Nat.add_zero] at this
          simp only [execLoop, h0]
          have hrec := ih r (start + 1) (acc + w * start) (by omega)
            (fun j hj => by
              have := hfail (j + 1) (by omega)
              rwa [show start + (j + 1) = start + 1 + j by omega] at this)
            (by rwa [show start + (i + 1) = start + 1 + i by omega] at hsucc)
          rw [hrec]
          congr 1
          rw [Finset.sum_range_succ']
          have hsum : ∑ j ∈ Finset.range i, (start + 1 + j) =
              ∑ j ∈ Finset.range i, (start + (j + 1)) :=
            Finset.sum_congr rfl (fun x _ => by omega)
          rw [hsum]
          ring

theorem execLoop_exhausted (w : Nat) (outcomes : Nat → Option String) :
    ∀ (rem start acc : Nat),
      (∀ j, j < rem → outcomes (start + j) = none) →
      execLoop w outcomes rem start acc =
        (none, acc + w * ∑ j ∈ Finset.range rem, (start + j)) := by
  intro rem
  induction rem with
  | zero => intro start acc hfail; simp [execLoop]
  | succ r ih =>
      intro start acc hfail
      have h0 : outcomes start = none := by
        have := hfail 0 (Nat.succ_pos r)
        rwa [Nat.add_zero] at this
      simp only [execLoop, h0]
      rw [ih (start + 1) (acc + w * start)
        (fun j hj => by
          have := hfail (j + 1) (by omega)
          rwa [show start + (j + 1) = start + 1 + j by omega] at this)]
      congr 1
      rw [Finset.sum_range_succ']
      have hsum : ∑ j ∈ Finset.range r, (start + 1 + j) =
          ∑ j ∈ Finset.range r, (start + (j + 1)) :=
        Finset.sum_congr rfl (fun x _ => by omega)
      rw [hsum]
      ring

theorem execLoop_success_zero (w : Nat) (outcomes : Nat → Option String) (v : String)
    (i rem : Nat) (hlt : i < rem)
    (hfail : ∀ j, j < i → outcomes j = none) (hsucc : outcomes i = some v) :
    execLoop w outcomes rem 0 0 = (some v, w * ∑ j ∈ Finset.range i, j) := by
  have := execLoop_success w outcomes v i rem 0 0 hlt
    (fun j hj => by simpa using hfail j hj) (by simpa using hsucc)
  simpa using this

theorem execLoop_exhausted_zero (w : Nat) (outcomes : Nat → Option String)
    (rem : Nat) (hfail : ∀ j, j < rem → outcomes j = none) :
    execLoop w outcomes rem 0 0 = (none, w * ∑ j ∈ Finset.range rem, j) := by
  have := execLoop_exhausted w outcomes rem 0 0 (fun j hj => by simpa using hfail j hj)
  simpa using this

end Gerrit

/-- C4 counterexample: a Gerrit ssh command failing on attempt 1 and
succeeding on attempt 2 returns after a cumulative wait of 0 seconds, not
the `D * 1 = 60 * 1` seconds the claim's formula demands: the code sleeps
`RETRY_WAIT * retries` with the retry counter starting at 0. -/
theorem claim_C4_counterexample :
    Gerrit.execute_from_remote Gerrit.MAX_RETRIES Gerrit.RETRY_WAIT
        (fun j => if j = 0 then none else some "ok") none [] =
      (Except.ok "ok", 0, none) ∧ (0 : Nat) ≠ 60 * 1 :=
  ⟨rfl, by omega⟩

/-- C4 (amended): the Gerrit ssh transport sleeps the fixed delay
multiplied by the zero-based retry counter, so a command failing on
attempts 1..k-1 and succeeding on attempt k returns its output after a
cumulative wait of `retryWait * (0 + 1 + ... + (k-2))` seconds, and a
command failing on all `MAX_RETRIES` attempts raises a `RuntimeError`
(after a cumulative wait of `retryWait * (0 + 1 + ... + (MAX_RETRIES-1))`)
instead of returning a partial result. -/
theorem claim_C4 :
    (∀ (retryWait : Nat) (outcomes : Nat → Option String) (k : Nat) (v : String),
        1 ≤ k → k ≤ Gerrit.MAX_RETRIES →
        (∀ j, j < k - 1 → outcomes j = none) →
        outcomes (k - 1) = some v →
        (Gerrit.execute_from_remote Gerrit.MAX_RETRIES retryWait outcomes none []).1 =
            Except.ok v ∧
          (Gerrit.execute_from_remote Gerrit.MAX_RETRIES retryWait outcomes none []).2.1 =
            retryWait * ∑ j ∈ Finset.range (k - 1), j) ∧
    (∀ (retryWait : Nat) (outcomes : Nat → Option String),
        (∀ j, j < Gerrit.MAX_RETRIES → outcomes j = none) →
        (Gerrit.execute_from_remote Gerrit.MAX_RETRIES retryWait outcomes none []).1 =
            Except.error (Gerrit.ExecError.runtime "cmd failed. Giving up!") ∧
          (Gerrit.execute_from_remote Gerrit.MAX_RETRIES retryWait outcomes none []).2.1 =
            retryWait * ∑ j ∈ Finset.range Gerrit.MAX_RETRIES, j) := by
  constructor
  · intro retryWait outcomes k v hk1 hk2 hfail hsucc
    have hl := Gerrit.execLoop_success_zero retryWait outcomes v (k - 1)
      Gerrit.MAX_RETRIES (by unfold Gerrit.MAX_RETRIES at *; omega) hfail hsucc
    constructor
    · simp [Gerrit.execute_from_remote, Gerrit.remoteOutcome, hl]
    · simp [Gerrit.execute_from_remote, hl]
  · intro retryWait outcomes hfail
    have hl := Gerrit.execLoop_exhausted_zero retryWait outcomes Gerrit.MAX_RETRIES hfail
    constructor
    · simp [Gerrit.execute_from_remote, Gerrit.remoteOutcome, hl]
    · simp [Gerrit.execute_from_remote, hl]

/-- Witness for C4 (amended) at a concrete input: failure on attempts 1
and 2, success on attempt 3, cumulative wait `60 * (0 + 1) = 60`. -/
theorem claim_C4_witness :
    (Gerrit.execute_from_remote Gerrit.MAX_RETRIES 60
        (fun j => if j < 2 then none else some "out") none []).1 = Except.ok "out" ∧
    (Gerrit.execute_from_remote Gerrit.MAX_RETRIES 60
        (fun j => if j < 2 then none else some "out") none []).2.1 =
      60 * ∑ j ∈ Finset.range (3 - 1), j :=
  claim_C4.1 60 (fun j => if j < 2 then none else some "out") 3 "out"
    (by decide) (by decide) (fun j hj => by simp; omega) (by decide)

/-- C5: the archive round-trip.  Retrieving the sanitized command after
storing an outcome under it yields exactly that outcome — a stored result
is returned, a stored `RuntimeError` is re-raised — and the remote
execution path with an archive configured stores its outcome, success and
definitive failure alike, under the sanitized command, so that replaying
the same command returns exactly what the remote execution returned. -/
theorem claim_C5 :
    (∀ (ar : Gerrit.Archive) (cmd : List Char) (R : Gerrit.Outcome),
        Gerrit.execute_from_archive (ar.store (Gerrit.sanitize_for_archive cmd) R) cmd =
          (match R with
           | .ok v => .ok v
           | .error msg => .error (.runtime msg))) ∧
    (∀ (maxRetries retryWait : Nat) (outcomes : Nat → Option String)
        (ar : Gerrit.Archive) (cmd : List Char),
        ∃ R : Gerrit.Outcome,
          (Gerrit.execute_from_remote maxRetries retryWait outcomes (some ar) cmd).2.2 =
              some (ar.store (Gerrit.sanitize_for_archive cmd) R) ∧
            (Gerrit.execute_from_remote maxRetries retryWait outcomes (some ar) cmd).1 =
              (match R with
               | .ok v => .ok v
               | .error msg => .error (.runtime msg))) := by
  constructor
  · intro ar cmd R
    cases R <;>
      simp [Gerrit.execute_from_archive, Gerrit.Archive.store, Gerrit.Archive.retrieve]
  · intro maxRetries retryWait outcomes ar cmd
    exact ⟨Gerrit.remoteOutcome maxRetries retryWait outcomes, rfl, rfl⟩

/-- C6 counterexample: with a stored reset value of 15 and current time 10,
the code waits `calculate_time_to_reset = 15` seconds, not the
`max 0 (15 - 10) = 5` seconds of the claim's formula: meetup.py line 458
never subtracts the current time. -/
theorem claim_C6_counterexample :
    Meetup.sleep_for_rate_limit true (some 0) 1 15 = some 15 ∧
    Meetup.claimedWaitSeconds 10 15 = 5 ∧ (15 : Int) ≠ 5 := by
  refine ⟨rfl, by simp [Meetup.claimedWaitSeconds], by omega⟩

/-- C6 (amended): with throttling enabled and a known quota at or below
the floor, the pre-request wait blocks for `max 0 R` seconds where `R` is
the stored rate-limit reset value itself (no subtraction of the current
time); with throttling disabled, or with the quota unknown, it never
sleeps. -/
theorem claim_C6 :
    (∀ (minRate resetTs rl : Int), rl ≤ minRate →
        Meetup.sleep_for_rate_limit true (some rl) minRate resetTs =
          some (max 0 resetTs)) ∧
    (∀ (rateLimit : Option Int) (minRate resetTs : Int),
        Meetup.sleep_for_rate_limit false rateLimit minRate resetTs = none) ∧
    (∀ (b : Bool) (minRate resetTs : Int),
        Meetup.sleep_for_rate_limit b none minRate resetTs = none) := by
  refine ⟨?_, ?_, ?_⟩
  · intro minRate resetTs rl hrl
    have hmax : Meetup.calculate_time_to_reset resetTs = max 0 resetTs := by
      unfold Meetup.calculate_time_to_reset
      split <;> omega
    simp [Meetup.sleep_for_rate_limit, hrl, hmax]
  · intro rateLimit minRate resetTs
    cases rateLimit <;> simp [Meetup.sleep_for_rate_limit]
  · intro b minRate resetTs
    rfl

/-- Witness for C6 (amended): quota 2 at or below floor 5 with stored
reset value 40 sleeps 40 seconds. -/
theorem claim_C6_witness :
    Meetup.sleep_for_rate_limit true (some 2) 5 40 = some (max 0 40) :=
  claim_C6.1 5 40 2 (by omega)

/-- C7: the next-page cursor of `GerritClient.next_retrieve_group_item` is
version dependent: versions 2.x with minor greater than 9 and 3.x return
offset 0 on the first call and the caller-supplied cursor afterwards,
version 2.9 raises a fatal `BackendError`, and older 2.x versions return
the last popped entry's `sortKey` as the resume token. -/
theorem claim_C7 :
    (∀ (minor : Nat) (entry : Option Gerrit.Review), 9 < minor →
        Gerrit.next_retrieve_group_item (2, minor) none entry =
            Except.ok (some (Gerrit.Cursor.ofs 0)) ∧
          ∀ c, Gerrit.next_retrieve_group_item (2, minor) (some c) entry =
            Except.ok (some c)) ∧
    (∀ (minor : Nat) (entry : Option Gerrit.Review),
        Gerrit.next_retrieve_group_item (3, minor) none entry =
            Except.ok (some (Gerrit.Cursor.ofs 0)) ∧
          ∀ c, Gerrit.next_retrieve_group_item (3, minor) (some c) entry =
            Except.ok (some c)) ∧
    (∀ (lastItem : Option Gerrit.Cursor) (entry : Option Gerrit.Review),
        Gerrit.next_retrieve_group_item (2, 9) lastItem entry =
          Except.error ⟨"Gerrit 2.9.0 does not support pagination"⟩) ∧
    (∀ (minor : Nat) (lastItem : Option Gerrit.Cursor) (e : Gerrit.Review),
        minor < 9 →
        Gerrit.next_retrieve_group_item (2, minor) lastItem (some e) =
          Except.ok (some (Gerrit.Cursor.key e.sortKey))) := by
  refine ⟨?_, ?_, ?_, ?_⟩
  · intro minor entry hm
    constructor
    · rw [Gerrit.next_retrieve_group_item.eq_def, if_pos (Or.inl ⟨rfl, hm⟩)]
    · intro c
      rw [Gerrit.next_retrieve_group_item.eq_def, if_pos (Or.inl ⟨rfl, hm⟩)]
  · intro minor entry
    constructor
    · rw [Gerrit.next_retrieve_group_item.eq_def, if_pos (Or.inr rfl)]
    · intro c
      rw [Gerrit.next_retrieve_group_item.eq_def, if_pos (Or.inr rfl)]
  · intro lastItem entry
    rw [Gerrit.next_retrieve_group_item.eq_def, if_neg (by omega), if_pos ⟨rfl, rfl⟩]
  · intro minor lastItem e hm
    rw [Gerrit.next_retrieve_group_item.eq_def, if_neg (by omega), if_neg (by omega)]

/-- Witness for C7 at concrete versions: 2.10 starts at offset 0 and keeps
a supplied cursor, 2.9 raises, and 2.8 resumes from the entry's sortKey. -/
theorem claim_C7_witness :
    Gerrit.next_retrieve_group_item (2, 10) none none =
        Except.ok (some (Gerrit.Cursor.ofs 0)) ∧
      Gerrit.next_retrieve_group_item (2, 9) none none =
        Except.error ⟨"Gerrit 2.9.0 does not support pagination"⟩ ∧
      Gerrit.next_retrieve_group_item (2, 8) none (some ⟨5, 7, "sk"⟩) =
        Except.ok (some (Gerrit.Cursor.key "sk")) :=
  ⟨(claim_C7.1 10 none (by omega)).1,
   claim_C7.2.2.1 none none,
   by simpa using claim_C7.2.2.2 8 none ⟨5, 7, "sk"⟩ (by omega)⟩

/-- C10: every item yielded by the Meetup backend carries `fetched_on`
equal to the UTC time of the fetch, `metadata_updated_on` returns that
fetch-time value for every event regardless of its own `dateTime`, and two
fetches of the same unchanged event at different times report different
update times. -/
theorem claim_C10 :
    (∀ (e : Meetup.MEvent) (cs rs : List Nat) (now : Int),
        (Meetup.fetch_item e cs rs now).fetched_on = now ∧
          Meetup.metadata_updated_on (Meetup.fetch_item e cs rs now) = now) ∧
    (∀ (e : Meetup.MEvent) (cs rs : List Nat) (now1 now2 : Int), now1 ≠ now2 →
        Meetup.metadata_updated_on (Meetup.fetch_item e cs rs now1) ≠
          Meetup.metadata_updated_on (Meetup.fetch_item e cs rs now2)) := by
  constructor
  · intro e cs rs now
    exact ⟨rfl, rfl⟩
  · intro e cs rs now1 now2 hne
    simpa [Meetup.metadata_updated_on, Meetup.fetch_item] using hne

/-- Witness for C10: the same event fetched at times 100 and 200 reports
update times 100 and 200, which differ. -/
theorem claim_C10_witness :
    Meetup.metadata_updated_on (Meetup.fetch_item ⟨1, 7⟩ [] [] 100) ≠
      Meetup.metadata_updated_on (Meetup.fetch_item ⟨1, 7⟩ [] [] 200) :=
  claim_C10.2 ⟨1, 7⟩ [] [] 100 200 (by omega)

namespace Meetup

theorem commentsLoopF_flatten_length (m count : Nat) (hm : 1 ≤ m) :
    ∀ (fuel ofs : Nat), count ≤ ofs + fuel * m → 1 ≤ fuel →
      ((commentsLoopF m count fuel ofs).flatten).length = count - ofs := by
  intro fuel
  induction fuel with
  | zero => intro ofs hle hf; omega
  | succ f ih =>
      intro ofs hle hf
      simp only [commentsLoopF]
      by_cases hstop : count ≤ ofs + m
      · rw [if_pos hstop]
        simp [commentsPage]
        omega
      · rw [if_neg hstop]
        have hf1 : 1 ≤ f := by
          rcases Nat.eq_zero_or_pos f with hz | hp
          · subst hz; omega
          · exact hp
        have hexp : (f + 1) * m = f * m + m := by ring
        have hrec := ih (ofs + m) (by omega) hf1
        simp [commentsPage, hrec]
        omega

theorem commentsLoopF_stable (m count : Nat) :
    ∀ (f1 f2 ofs : Nat), count ≤ ofs + f1 * m → count ≤ ofs + f2 * m →
      1 ≤ f1 → 1 ≤ f2 →
      commentsLoopF m count f1 ofs = commentsLoopF m count f2 ofs := by
  intro f1
  induction f1 with
  | zero => intro f2 ofs h1 h2 hf1 hf2; omega
  | succ s ih =>
      intro f2 ofs h1 h2 hf1 hf2
      cases f2 with
      | zero => omega
      | succ t =>
          simp only [commentsLoopF]
          by_cases hstop : count ≤ ofs + m
          · rw [if_pos hstop, if_pos hstop]
          · rw [if_neg hstop, if_neg hstop]
            have hexps : (s + 1) * m = s * m + m := by ring
            have hexpt : (t + 1) * m = t * m + m := by ring
            have hs1 : 1 ≤ s := by
              rcases Nat.eq_zero_or_pos s with hz | hp
              · subst hz; omega
              · exact hp
            have ht1 : 1 ≤ t := by
              rcases Nat.eq_zero_or_pos t with hz | hp
              · subst hz; omega
              · exact hp
            rw [ih t (ofs + m) (by omega) (by omega) hs1 ht1]

theorem rsvps_stops_at_false :
    ∀ (front : List TPage) (stop : TPage) (rest : List TPage),
      (∀ p ∈ front, p.hasNextPage = true) → stop.hasNextPage = false →
      rsvps (front ++ stop :: rest) = (front ++ [stop]).map TPage.edges := by
  intro front
  induction front with
  | nil =>
      intro stop rest hfront hstop
      simp [rsvps, hstop]
  | cons p ps ih =>
      intro stop rest hfront hstop
      have hp : p.hasNextPage = true := hfront p (List.mem_cons_self p ps)
      have hih := ih stop rest (fun q hq => hfront q (List.mem_cons_of_mem p hq)) hstop
      simp [rsvps, hp, hih]

end Meetup

/-- C9: sub-resource pagination terminates and is complete.  The comments
walk — requesting pages of `max_items` edges at offsets 0, `max_items`,
2 * `max_items`, ... while each page holds the next
`min max_items (count - offset)` edges — yields exactly `count` edges
across all pages, and any fuel bound beyond `count + 1` computes the same
finite page list (the loop reaches its stop condition); the rsvps walk
yields page after page while `hasNextPage` holds and stops with the first
page reporting `hasNextPage` false. -/
theorem claim_C9 :
    (∀ (maxItems count : Nat), 1 ≤ maxItems →
        ((Meetup.comments maxItems count).flatten).length = count ∧
          ∀ fuel, count + 1 ≤ fuel →
            Meetup.commentsLoopF maxItems count fuel 0 =
              Meetup.comments maxItems count) ∧
    (∀ (front : List Meetup.TPage) (stop : Meetup.TPage) (rest : List Meetup.TPage),
        (∀ p ∈ front, p.hasNextPage = true) → stop.hasNextPage = false →
        Meetup.rsvps (front ++ stop :: rest) =
          (front ++ [stop]).map Meetup.TPage.edges) := by
  constructor
  · intro maxItems count hm
    have hbig : count + 1 ≤ (count + 1) * maxItems :=
      Nat.le_mul_of_pos_right (count + 1) hm
    constructor
    · have := Meetup.commentsLoopF_flatten_length maxItems count hm (count + 1) 0
        (by omega) (by omega)
      simpa [Meetup.comments] using this
    · intro fuel hfuel
      have hfbig : fuel ≤ fuel * maxItems := Nat.le_mul_of_pos_right fuel hm
      exact Meetup.commentsLoopF_stable maxItems count fuel (count + 1) 0
        (by omega) (by omega) (by omega) (by omega)
  · exact Meetup.rsvps_stops_at_false

/-- Witness for C9: page size 2 over 5 comment edges yields 5 edges
total, and an rsvps partition of two continuing pages and a final page
yields exactly those three pages. -/
theorem claim_C9_witness :
    ((Meetup.comments 2 5).flatten).length = 5 ∧
      Meetup.rsvps ([Meetup.TPage.mk [1] true "a", Meetup.TPage.mk [2] true "b"] ++
          Meetup.TPage.mk [3] false "c" :: []) =
        ([Meetup.TPage.mk [1] true "a", Meetup.TPage.mk [2] true "b"] ++
          [Meetup.TPage.mk [3] false "c"]).map Meetup.TPage.edges := by
  refine ⟨(claim_C9.1 2 5 (by decide)).1, ?_⟩
  exact claim_C9.2 [Meetup.TPage.mk [1] true "a", Meetup.TPage.mk [2] true "b"]
    (Meetup.TPage.mk [3] false "c") []
    (by intro p hp; simp at hp; rcases hp with h | h <;> simp [h]) rfl

namespace Gerrit

theorem sanitize_cons_not_space {c : Char} (cs : List Char) (hc : c ≠ ' ') :
    sanitize_for_archive (c :: cs) = c :: sanitize_for_archive cs := by
  rw [sanitize_for_archive]
  rw [dif_neg]
  intro hh
  exact hc hh.1

theorem sanitize_cons_space_some {cs r : List Char} (hsp : lastAtSplit cs = some r) :
    sanitize_for_archive (' ' :: cs) = xxxxxAt ++ sanitize_for_archive r := by
  rw [sanitize_for_archive]
  rw [dif_pos ⟨rfl, by simp [hsp]⟩]
  simp [hsp]

theorem sanitize_cons_space_none {cs : List Char} (hsp : lastAtSplit cs = none) :
    sanitize_for_archive (' ' :: cs) = ' ' :: sanitize_for_archive cs := by
  rw [sanitize_for_archive]
  rw [dif_neg]
  intro hh
  rw [hsp] at hh
  simp at hh

theorem lastAtSplit_append_space :
    ∀ (a b : List Char), lastAtSplit (a ++ ' ' :: b) =
      (lastAtSplit a).map (fun r => r ++ ' ' :: b) := by
  intro a
  induction a with
  | nil => intro b; simp [lastAtSplit, pyIsSpace]
  | cons c a' ih =>
      intro b
      simp only [List.cons_append, lastAtSplit, List.append_eq]
      by_cases hsp : pyIsSpace c = true
      · rw [if_pos hsp, if_pos hsp]
        rfl
      · rw [if_neg hsp, if_neg hsp]
        rw [ih b]
        cases hx : lastAtSplit a' with
        | some r => rfl
        | none =>
            by_cases hc : c = '@'
            · rw [if_pos hc, if_pos hc]
              rfl
            · rw [if_neg hc, if_neg hc]
              rfl

theorem lastAtSplit_user :
    ∀ (u t : List Char), (∀ c ∈ u, pyIsSpace c = false) →
      lastAtSplit (u ++ '@' :: t) = some ((lastAtSplit t).getD t) := by
  intro u
  induction u with
  | nil =>
      intro t hu
      simp only [List.nil_append, lastAtSplit]
      rw [if_neg (by decide)]
      cases hx : lastAtSplit t with
      | some r => simp
      | none => simp
  | cons c u' ih =>
      intro t hu
      have hc : pyIsSpace c = false := hu c (List.mem_cons_self c u')
      simp only [List.cons_append, lastAtSplit, List.append_eq]
      rw [if_neg (by simp [hc])]
      rw [ih t (fun d hd => hu d (List.mem_cons_of_mem c hd))]

theorem sanitize_append_congr (t1 t2 : List Char)
    (heq : sanitize_for_archive (' ' :: t1) = sanitize_for_archive (' ' :: t2)) :
    ∀ (n : Nat) (p : List Char), p.length ≤ n →
      sanitize_for_archive (p ++ ' ' :: t1) = sanitize_for_archive (p ++ ' ' :: t2) := by
  intro n
  induction n with
  | zero =>
      intro p hp
      have hz : p = [] := List.length_eq_zero.mp (Nat.le_zero.mp hp)
      subst hz
      simpa using heq
  | succ n ih =>
      intro p hp
      cases p with
      | nil => simpa using heq
      | cons c p' =>
          rw [List.cons_append, List.cons_append]
          simp only [List.length_cons] at hp
          by_cases hc : c = ' '
          · subst hc
            cases hsp : lastAtSplit p' with
            | some r =>
                have hl1 : lastAtSplit (p' ++ ' ' :: t1) = some (r ++ ' ' :: t1) := by
                  rw [lastAtSplit_append_space p' t1, hsp]; rfl
                have hl2 : lastAtSplit (p' ++ ' ' :: t2) = some (r ++ ' ' :: t2) := by
                  rw [lastAtSplit_append_space p' t2, hsp]; rfl
                rw [sanitize_cons_space_some hl1, sanitize_cons_space_some hl2]
                congr 1
                exact ih r (by have := lastAtSplit_length_lt hsp; omega)
            | none =>
                have hl1 : lastAtSplit (p' ++ ' ' :: t1) = none := by
                  rw [lastAtSplit_append_space p' t1, hsp]; rfl
                have hl2 : lastAtSplit (p' ++ ' ' :: t2) = none := by
                  rw [lastAtSplit_append_space p' t2, hsp]; rfl
                rw [sanitize_cons_space_none hl1, sanitize_cons_space_none hl2]
                rw [ih p' (by omega)]
          · rw [sanitize_cons_not_space _ hc, sanitize_cons_not_space _ hc]
            rw [ih p' (by omega)]

theorem sanitize_user_head (u t : List Char) (hu : ∀ c ∈ u, pyIsSpace c = false) :
    sanitize_for_archive (' ' :: (u ++ '@' :: t)) =
      xxxxxAt ++ sanitize_for_archive ((lastAtSplit t).getD t) :=
  sanitize_cons_space_some (lastAtSplit_user u t hu)

end Gerrit

/-- C8: sanitization is credential independent.  Two Gerrit ssh commands
that differ only in the user segment before the at sign sanitize to the
same archive key; two Meetup requests that differ only in the value of the
Authorization header sanitize to the same key; and the sanitized Meetup
headers carry no Authorization entry at all. -/
theorem claim_C8 :
    (∀ (sshOpts port host rest u1 u2 : List Char),
        (∀ c ∈ u1, Gerrit.pyIsSpace c = false) →
        (∀ c ∈ u2, Gerrit.pyIsSpace c = false) →
        Gerrit.sanitize_for_archive (Gerrit.gerrit_cmd sshOpts port u1 host rest) =
          Gerrit.sanitize_for_archive (Gerrit.gerrit_cmd sshOpts port u2 host rest)) ∧
    (∀ (url : String) (pre post : List (String × String)) (tok1 tok2 payload : String),
        Meetup.sanitize_for_archive url (pre ++ (Meetup.PKEY_OAUTH2, tok1) :: post) payload =
          Meetup.sanitize_for_archive url (pre ++ (Meetup.PKEY_OAUTH2, tok2) :: post) payload) ∧
    (∀ (url : String) (headers : List (String × String)) (payload : String)
        (kv : String × String),
        kv ∈ (Meetup.sanitize_for_archive url headers payload).2.1 →
        kv.1 ≠ Meetup.PKEY_OAUTH2) := by
  refine ⟨?_, ?_, ?_⟩
  · intro sshOpts port host rest u1 u2 h1 h2
    unfold Gerrit.gerrit_cmd
    rw [show ∀ u : List Char,
          Gerrit.sshLit ++ sshOpts ++ Gerrit.dashPLit ++ port ++
              ' ' :: (u ++ '@' :: (host ++ rest)) =
            (Gerrit.sshLit ++ sshOpts ++ Gerrit.dashPLit ++ port) ++
              ' ' :: (u ++ '@' :: (host ++ rest))
        from fun u => by simp]
    apply Gerrit.sanitize_append_congr _ _ ?_ _ _ le_rfl
    rw [Gerrit.sanitize_user_head u1 (host ++ rest) h1,
      Gerrit.sanitize_user_head u2 (host ++ rest) h2]
  · intro url pre post tok1 tok2 payload
    simp [Meetup.sanitize_for_archive, List.filter_append, Meetup.PKEY_OAUTH2]
  · intro url headers payload kv hkv
    unfold Meetup.sanitize_for_archive at hkv
    simp only at hkv
    rw [List.mem_filter] at hkv
    exact of_decide_eq_true hkv.2

/-- Witness for C8 at concrete commands: users 'ab' and 'z' produce the
same sanitized Gerrit command. -/
theorem claim_C8_witness :
    Gerrit.sanitize_for_archive
        (Gerrit.gerrit_cmd [] ['2', '9'] ['a', 'b'] ['h'] [' ', 'q']) =
      Gerrit.sanitize_for_archive
        (Gerrit.gerrit_cmd [] ['2', '9'] ['z'] ['h'] [' ', 'q']) :=
  claim_C8.1 [] ['2', '9'] ['h'] [' ', 'q'] ['a', 'b'] ['z']
    (by intro c hc; simp at hc; rcases hc with h | h <;> subst h <;> decide)
    (by intro c hc; simp at hc; subst hc; decide)

namespace Gerrit

theorem pagesReach_sublist (m : Nat) :
    ∀ (P : List (List Review)) (n : Nat), List.Sublist (pagesReach m n P) P.flatten := by
  intro P
  induction P with
  | nil => intro n; simp [pagesReach]
  | cons pg pgs ih =>
      intro n
      simp only [pagesReach, List.flatten_cons]
      by_cases hn : m ≤ n
      · rw [if_pos hn]
        exact (List.append_sublist_append_left pg).mpr (ih pg.length)
      · rw [if_neg hn]
        exact List.nil_sublist _

theorem reach_refill (m : Nat) (p : Part) : reach m (g28Refill m p) = reach m p := by
  unfold g28Refill
  by_cases hcond : p.q = [] ∧ m ≤ p.lastN
  · rw [if_pos hcond]
    obtain ⟨hq, hn⟩ := hcond
    cases hpg : p.pages with
    | nil => simp [reach, pagesReach, hq, hpg]
    | cons pg pgs => simp [reach, pagesReach, hq, hpg, hn]
  · rw [if_neg hcond]

theorem refill_q_empty_reach (m : Nat) (hm : 1 ≤ m) (p : Part)
    (hq : (g28Refill m p).q = []) : reach m (g28Refill m p) = [] := by
  rw [reach_refill]
  unfold g28Refill at hq
  by_cases hcond : p.q = [] ∧ m ≤ p.lastN
  · rw [if_pos hcond] at hq
    obtain ⟨hq0, hn⟩ := hcond
    cases hpg : p.pages with
    | nil =>
        rw [reach, hq0, List.nil_append, hpg, pagesReach]
    | cons pg pgs =>
        have hq2 : pg = [] := by rw [hpg] at hq; simpa using hq
        rw [reach, hq0, List.nil_append, hpg, pagesReach, if_pos hn, hq2]
        simp only [List.nil_append, List.length_nil]
        cases pgs with
        | nil => rw [pagesReach]
        | cons x xs => rw [pagesReach, if_neg (by omega)]
  · rw [if_neg hcond] at hq
    have hn : ¬ m ≤ p.lastN := fun hle => hcond ⟨hq, hle⟩
    rw [reach, hq, List.nil_append]
    cases hpg : p.pages with
    | nil => rw [pagesReach]
    | cons x xs => rw [pagesReach, if_neg hn]

theorem init_reach_sublist (m : Nat) :
    ∀ (P : List (List Review)), List.Sublist (reach m (initPart P)) P.flatten := by
  intro P
  cases P with
  | nil => simp [initPart, reach, pagesReach]
  | cons p ps =>
      simp only [initPart, reach, List.flatten_cons]
      exact (List.append_sublist_append_left p).mpr (pagesReach_sublist m ps p.length)

theorem init_q_empty_reach (m : Nat) (hm : 1 ≤ m) (P : List (List Review))
    (hq : (initPart P).q = []) : reach m (initPart P) = [] := by
  cases P with
  | nil => simp [initPart, reach, pagesReach]
  | cons p ps =>
      simp only [initPart] at hq
      subst hq
      simp only [initPart, reach, List.nil_append, List.length_nil]
      cases ps with
      | nil => rw [pagesReach]
      | cons x xs => rw [pagesReach, if_neg (by omega)]

theorem g28Sel_spec : ∀ {oq0 cq0 : List Review} {r : Review} {oq cq : List Review},
    g28Sel oq0 cq0 = some (r, oq, cq) →
    (oq0 = r :: oq ∧ cq = cq0 ∧
      (cq0 = [] ∨ ∃ rc cs, cq0 = rc :: cs ∧ rc.lastUpdated ≤ r.lastUpdated)) ∨
    (cq0 = r :: cq ∧ oq = oq0 ∧
      (oq0 = [] ∨ ∃ ro os, oq0 = ro :: os ∧ ro.lastUpdated ≤ r.lastUpdated)) := by
  intro oq0 cq0 r oq cq h
  cases oq0 with
  | nil =>
      cases cq0 with
      | nil => simp [g28Sel] at h
      | cons rc cs =>
          simp only [g28Sel, Option.some.injEq, Prod.mk.injEq] at h
          obtain ⟨h1, h2, h3⟩ := h
          subst_vars
          exact Or.inr ⟨rfl, rfl, Or.inl rfl⟩
  | cons ro os =>
      cases cq0 with
      | nil =>
          simp only [g28Sel, Option.some.injEq, Prod.mk.injEq] at h
          obtain ⟨h1, h2, h3⟩ := h
          subst_vars
          exact Or.inl ⟨rfl, rfl, Or.inl rfl⟩
      | cons rc cs =>
          simp only [g28Sel] at h
          by_cases hcmp : rc.lastUpdated ≤ ro.lastUpdated
          · rw [if_pos hcmp] at h
            simp only [Option.some.injEq, Prod.mk.injEq] at h
            obtain ⟨h1, h2, h3⟩ := h
            subst_vars
            exact Or.inl ⟨rfl, rfl, Or.inr ⟨rc, cs, rfl, hcmp⟩⟩
          · rw [if_neg hcmp] at h
            simp only [Option.some.injEq, Prod.mk.injEq] at h
            obtain ⟨h1, h2, h3⟩ := h
            subst_vars
            exact Or.inr ⟨rfl, rfl, Or.inr ⟨ro, os, rfl, by omega⟩⟩

theorem g28LoopF_subset (w : Int) (m : Nat) :
    ∀ (fuel : Nat) (s : G28State) (x : Review),
      x ∈ g28LoopF w m fuel s → x ∈ reach m s.op ++ reach m s.cl := by
  intro fuel
  induction fuel with
  | zero => intro s x hx; simp [g28LoopF] at hx
  | succ fuel ih =>
      intro s x hx
      simp only [g28LoopF] at hx
      cases hsel : g28Sel s.op.q s.cl.q with
      | none => rw [hsel] at hx; simp at hx
      | some picked =>
          obtain ⟨r, oq, cq⟩ := picked
          rw [hsel] at hx
          simp only at hx
          split at hx
          · simp at hx
          · rw [List.mem_cons] at hx
            rw [List.mem_append]
            rcases g28Sel_spec hsel with ⟨ho, hc, _⟩ | ⟨hc, ho, _⟩
            · rcases hx with hx | hx
              · subst hx
                left
                rw [reach, ho]
                exact List.mem_append_left _ (List.mem_cons_self _ _)
              · have hmem := ih _ x hx
                rw [List.mem_append] at hmem
                rcases hmem with hmem | hmem
                · left
                  rw [reach_refill] at hmem
                  rw [reach, ho]
                  rw [reach] at hmem
                  simp only [List.cons_append, List.mem_cons]
                  exact Or.inr hmem
                · right
                  rw [reach_refill] at hmem
                  rw [hc] at hmem
                  exact hmem
            · rcases hx with hx | hx
              · subst hx
                right
                rw [reach, hc]
                exact List.mem_append_left _ (List.mem_cons_self _ _)
              · have hmem := ih _ x hx
                rw [List.mem_append] at hmem
                rcases hmem with hmem | hmem
                · left
                  rw [reach_refill] at hmem
                  rw [ho] at hmem
                  exact hmem
                · right
                  rw [reach_refill] at hmem
                  rw [reach, hc]
                  rw [reach] at hmem
                  simp only [List.cons_append, List.mem_cons]
                  exact Or.inr hmem

theorem g28LoopF_nonInc (w : Int) (m : Nat) (hm : 1 ≤ m) :
    ∀ (fuel : Nat) (s : G28State),
      NonInc (reach m s.op) → NonInc (reach m s.cl) →
      (s.op.q = [] → reach m s.op = []) → (s.cl.q = [] → reach m s.cl = []) →
      NonInc (g28LoopF w m fuel s) := by
  intro fuel
  induction fuel with
  | zero => intro s _ _ _ _; simp [g28LoopF, NonInc]
  | succ fuel ih =>
      intro s hO hC hOe hCe
      simp only [g28LoopF]
      cases hsel : g28Sel s.op.q s.cl.q with
      | none => simp [NonInc]
      | some picked =>
          obtain ⟨r, oq, cq⟩ := picked
          simp only
          split
          · simp [NonInc]
          · rw [NonInc, List.pairwise_cons]
            have hOtail : NonInc (reach m (g28Refill m ⟨oq, s.op.lastN, s.op.pages⟩)) ∧
                (∀ b ∈ reach m (g28Refill m ⟨oq, s.op.lastN, s.op.pages⟩),
                  b.lastUpdated ≤ r.lastUpdated) := by
              rw [reach_refill]
              rcases g28Sel_spec hsel with ⟨ho, _, _⟩ | ⟨_, ho, hbnd⟩
              · have : reach m s.op = r :: reach m ⟨oq, s.op.lastN, s.op.pages⟩ := by
                  rw [reach, reach, ho, List.cons_append]
                rw [NonInc, this, List.pairwise_cons] at hO
                exact ⟨hO.2, hO.1⟩
              · rw [ho]
                rcases hbnd with hnil | ⟨ro, os, hcons, hle⟩
                · have := hOe hnil
                  rw [this]
                  exact ⟨List.Pairwise.nil, by simp⟩
                · constructor
                  · exact hO
                  · intro b hb
                    have : reach m s.op = ro :: (os ++ pagesReach m s.op.lastN s.op.pages) := by
                      rw [reach, hcons, List.cons_append]
                    rw [NonInc, this, List.pairwise_cons] at hO
                    rw [this] at hb
                    rw [List.mem_cons] at hb
                    rcases hb with hb | hb
                    · subst hb; omega
                    · have := hO.1 b hb
                      omega
            have hCtail : NonInc (reach m (g28Refill m ⟨cq, s.cl.lastN, s.cl.pages⟩)) ∧
                (∀ b ∈ reach m (g28Refill m ⟨cq, s.cl.lastN, s.cl.pages⟩),
                  b.lastUpdated ≤ r.lastUpdated) := by
              rw [reach_refill]
              rcases g28Sel_spec hsel with ⟨_, hc, hbnd⟩ | ⟨hc, _, _⟩
              · rw [hc]
                rcases hbnd with hnil | ⟨rc, cs, hcons, hle⟩
                · have := hCe hnil
                  rw [this]
                  exact ⟨List.Pairwise.nil, by simp⟩
                · constructor
                  · exact hC
                  · intro b hb
                    have : reach m s.cl = rc :: (cs ++ pagesReach m s.cl.lastN s.cl.pages) := by
                      rw [reach, hcons, List.cons_append]
                    rw [NonInc, this, List.pairwise_cons] at hC
                    rw [this] at hb
                    rw [List.mem_cons] at hb
                    rcases hb with hb | hb
                    · subst hb; omega
                    · have := hC.1 b hb
                      omega
              · have : reach m s.cl = r :: reach m ⟨cq, s.cl.lastN, s.cl.pages⟩ := by
                  rw [reach, reach, hc, List.cons_append]
                rw [NonInc, this, List.pairwise_cons] at hC
                exact ⟨hC.2, hC.1⟩
            constructor
            · intro b hb
              have hmem := g28LoopF_subset w m fuel _ b hb
              rw [List.mem_append] at hmem
              rcases hmem with hmem | hmem
              · exact hOtail.2 b hmem
              · exact hCtail.2 b hmem
            · exact ih _ hOtail.1 hCtail.1
                (refill_q_empty_reach m hm _) (refill_q_empty_reach m hm _)

end Gerrit

/-- C3: when the reviews each partition serves arrive non-increasing in
`lastUpdated` (over the concatenation of that partition's pages), the
dual-queue merge — which pops the front of whichever queue holds the
greater timestamp, ties to the open partition, and pops the only
non-empty queue otherwise — emits a sequence whose `lastUpdated` values
are non-increasing until the stream stops. -/
theorem claim_C3 (w : Int) (maxReviews : Nat)
    (openPages closedPages : List (List Gerrit.Review))
    (hO : Gerrit.NonInc openPages.flatten) (hC : Gerrit.NonInc closedPages.flatten) :
    Gerrit.NonInc (Gerrit.fetch_gerrit28 w maxReviews openPages closedPages) := by
  unfold Gerrit.fetch_gerrit28
  apply Gerrit.g28LoopF_nonInc w (max 1 maxReviews) (Nat.le_max_left 1 maxReviews)
  · exact List.Pairwise.sublist (Gerrit.init_reach_sublist _ openPages) hO
  · exact List.Pairwise.sublist (Gerrit.init_reach_sublist _ closedPages) hC
  · exact Gerrit.init_q_empty_reach _ (Nat.le_max_left 1 maxReviews) openPages
  · exact Gerrit.init_q_empty_reach _ (Nat.le_max_left 1 maxReviews) closedPages

/-- Witness for C3: sorted open pages timestamped 50, 40 then 35 and a
closed page timestamped 45, 10 merge into a non-increasing emission. -/
theorem claim_C3_witness :
    Gerrit.NonInc (Gerrit.fetch_gerrit28 5 2
      [[⟨1, 50, ""⟩, ⟨2, 40, ""⟩], [⟨3, 35, ""⟩]] [[⟨4, 45, ""⟩, ⟨5, 10, ""⟩]]) :=
  claim_C3 5 2 [[⟨1, 50, ""⟩, ⟨2, 40, ""⟩], [⟨3, 35, ""⟩]] [[⟨4, 45, ""⟩, ⟨5, 10, ""⟩]]
    (by decide) (by decide)

